import Mathlib

set_option maxHeartbeats 1000000

namespace ChangesetsDigger

/- ===== Character / string utilities =====
   A faithful ASCII model of the JavaScript string operations used by the
   source: `trim`, `split`, `includes`, `endsWith`, `replace` (first
   occurrence), `join`, `toLowerCase`. Strings are handled through their
   character lists so that all functions are structurally recursive. -/

/-- ASCII whitespace (model of the characters relevant to JS `trim`). -/
def isWs (c : Char) : Bool := c == ' ' || c == '\t' || c == '\n' || c == '\r'

def trimChars (l : List Char) : List Char :=
  ((l.dropWhile isWs).reverse.dropWhile isWs).reverse

/-- Model of JS `String.prototype.trim`. -/
def trimStr (s : String) : String := ⟨trimChars s.data⟩

/-- Model of JS `str.split(sep)` for a one-character separator. -/
def splitOnCharL (sep : Char) : List Char → List (List Char)
  | [] => [[]]
  | c :: rest =>
    match splitOnCharL sep rest with
    | [] => [[]]
    | s :: ss => if c == sep then [] :: s :: ss else (c :: s) :: ss

/-- Model of `content.split('\n')`. -/
def splitLines (s : String) : List String :=
  (splitOnCharL '\n' s.data).map (fun l => (⟨l⟩ : String))

def isPrefixL : List Char → List Char → Bool
  | [], _ => true
  | _ :: _, [] => false
  | a :: as, b :: bs => a == b && isPrefixL as bs

def substrIn (pat : List Char) : List Char → Bool
  | [] => isPrefixL pat []
  | c :: rest => isPrefixL pat (c :: rest) || substrIn pat rest

/-- Model of JS `hay.includes(pat)`. -/
def containsSubstr (hay pat : String) : Bool := substrIn pat.data hay.data

/-- Model of JS `s.endsWith(suf)`. -/
def endsWithStr (s suf : String) : Bool := isPrefixL suf.data.reverse s.data.reverse

/-- Model of JS `s.replace(pat, '')`: removes the first occurrence of `pat`. -/
def replaceFirstL (pat : List Char) : List Char → List Char
  | [] => []
  | c :: rest =>
    if !pat.isEmpty && isPrefixL pat (c :: rest) then (c :: rest).drop pat.length
    else c :: replaceFirstL pat rest

def replaceFirst (s pat : String) : String := ⟨replaceFirstL pat.data s.data⟩

/-- Model of JS `arr.join(sep)`. -/
def joinSep (sep : String) : List String → String
  | [] => ""
  | [x] => x
  | x :: y :: rest => x ++ sep ++ joinSep sep (y :: rest)

def joinSepL (sep : List Char) : List (List Char) → List Char
  | [] => []
  | [x] => x
  | x :: y :: rest => x ++ sep ++ joinSepL sep (y :: rest)

/-- ASCII model of JS `toLowerCase` on a character. -/
def lowerChar (c : Char) : Char :=
  if 'A' ≤ c ∧ c ≤ 'Z' then Char.ofNat (c.toNat + 32) else c

/-- ASCII model of JS `s.toLowerCase()`. -/
def lowerStr (s : String) : String := ⟨s.data.map lowerChar⟩

/- ===== Data model (src/types and changeset-reader) ===== -/

/-- A release bump type carried by one entry of `Changeset.releases`. -/
inductive RelType
  | major
  | minor
  | patch
  deriving DecidableEq

/-- `Changeset` from changeset-reader: id, summary, releases. -/
structure Changeset where
  id : String
  summary : String
  releases : List RelType
  deriving DecidableEq

/-- `ChangeEntry.type` from src/types. -/
inductive Category
  | added
  | changed
  | deprecated
  | removed
  | fixed
  | security
  deriving DecidableEq

structure ChangeEntry where
  type : Category
  summary : String
  deriving DecidableEq

/-- `ChangelogEntry` from src/types; the optional `isUpcoming` field is
    modelled as a Bool (absent = false). -/
structure ChangelogEntry where
  version : String
  date : String
  changes : List ChangeEntry
  isUpcoming : Bool
  deriving DecidableEq

/- ===== Record parser (changeset-reader.ts: parseChangesetContent) ===== -/

/-- Model of `line.match(/^type\s*:\s*["']?(major|minor|patch)["']?/)`:
    the regex is unanchored at the end, so it checks a prefix of the line. -/
def matchTypeLine (line : String) : Option RelType :=
  let l := line.data
  if isPrefixL ['t', 'y', 'p', 'e'] l then
    match (l.drop 4).dropWhile isWs with
    | ':' :: r2 =>
      let r3 := r2.dropWhile isWs
      let r4 := if r3.head? = some '"' ∨ r3.head? = some (Char.ofNat 39) then r3.drop 1 else r3
      if isPrefixL ['m', 'a', 'j', 'o', 'r'] r4 then some RelType.major
      else if isPrefixL ['m', 'i', 'n', 'o', 'r'] r4 then some RelType.minor
      else if isPrefixL ['p', 'a', 't', 'c', 'h'] r4 then some RelType.patch
      else none
    | _ => none
  else none

/-- `parseChangesetContent(content, id)` from changeset-reader.ts. -/
def parseChangesetContent (content : String) (id : String) : Changeset :=
  let lines := splitLines content
  match lines.findIdx? (fun l => trimStr l == "---") with
  | none =>
    { id := id
      summary := if trimStr content == "" then "Changes from " ++ id else trimStr content
      releases := [] }
  | some fmStart =>
    match (lines.drop (fmStart + 1)).findIdx? (fun l => trimStr l == "---") with
    | none =>
      { id := id
        summary := if trimStr content == "" then "Changes from " ++ id else trimStr content
        releases := [] }
    | some d =>
      let fmEnd := fmStart + 1 + d
      let fmLines := (lines.take fmEnd).drop (fmStart + 1)
      let releases := fmLines.filterMap matchTypeLine
      let rawSummary := trimStr (joinSep "\n" (lines.drop (fmEnd + 1)))
      { id := id
        summary := if rawSummary == "" then "Changes from " ++ id else rawSummary
        releases := releases }

/- ===== Severity resolver (version-calc.ts: getHighestBumpLevel) ===== -/

inductive BumpLevel
  | major
  | minor
  | patch
  | none
  deriving DecidableEq

/-- One non-major update step of the loop body in `getHighestBumpLevel`. -/
def stepLevel (highest : BumpLevel) (r : RelType) : BumpLevel :=
  match r with
  | RelType.major => highest
  | RelType.minor => if highest ≠ BumpLevel.minor then BumpLevel.minor else highest
  | RelType.patch => if highest = BumpLevel.none then BumpLevel.patch else highest

/-- Inner loop over one changeset's releases; `.error` models the early
    `return 'major'`. -/
def scanRels : List RelType → BumpLevel → Except BumpLevel BumpLevel
  | [], h => Except.ok h
  | r :: rs, h =>
    if r = RelType.major then Except.error BumpLevel.major
    else scanRels rs (stepLevel h r)

/-- Outer loop over the changesets. -/
def scanCss : List Changeset → BumpLevel → Except BumpLevel BumpLevel
  | [], h => Except.ok h
  | cs :: rest, h =>
    match scanRels cs.releases h with
    | Except.error l => Except.error l
    | Except.ok h2 => scanCss rest h2

/-- `getHighestBumpLevel(changesets)` from version-calc.ts. -/
def getHighestBumpLevel (changesets : List Changeset) : BumpLevel :=
  match scanCss changesets BumpLevel.none with
  | Except.error l => l
  | Except.ok h => h

/-- `true` iff some record in `l` carries release type `r`. -/
def hasRelB (l : List Changeset) (r : RelType) : Bool :=
  l.any (fun cs => cs.releases.any (fun x => x == r))

/-- Maximum severity under the precedence major > minor > patch > none,
    stated from the spec's words for comparison with the code. -/
def precedenceMax (l : List Changeset) : BumpLevel :=
  if hasRelB l RelType.major then BumpLevel.major
  else if hasRelB l RelType.minor then BumpLevel.minor
  else if hasRelB l RelType.patch then BumpLevel.patch
  else BumpLevel.none

/- ===== Change categorizer (version-calc.ts: categorizeChange) ===== -/

/-- `categorizeChange(summary)` from version-calc.ts. -/
def categorizeChange (summary : String) : Category :=
  let lower := lowerStr summary
  if containsSubstr lower "add" || containsSubstr lower "new" || containsSubstr lower "feature" then
    Category.added
  else if containsSubstr lower "fix" || containsSubstr lower "bug" || containsSubstr lower "resolve" then
    Category.fixed
  else if containsSubstr lower "remove" || containsSubstr lower "delete" then
    Category.removed
  else if containsSubstr lower "deprecat" then
    Category.deprecated
  else if containsSubstr lower "security" || containsSubstr lower "vulnerabilit" then
    Category.security
  else
    Category.changed

/-- The spec's ordered keyword table for categorization. -/
def categoryTable : List (List String × Category) :=
  [(["add", "new", "feature"], Category.added),
   (["fix", "bug", "resolve"], Category.fixed),
   (["remove", "delete"], Category.removed),
   (["deprecat"], Category.deprecated),
   (["security", "vulnerabilit"], Category.security)]

/-- First-match-wins evaluation of the keyword table, from the spec's words;
    no match falls through to `changed`. -/
def firstMatchCat (lower : String) : List (List String × Category) → Category
  | [] => Category.changed
  | row :: rest =>
    if row.1.any (fun kw => containsSubstr lower kw) then row.2
    else firstMatchCat lower rest

/-- Spec-side categorizer: lowercase, then first matching table row. -/
def categorizeSpec (summary : String) : Category :=
  firstMatchCat (lowerStr summary) categoryTable

/- ===== Semver model (the consumed surface of the `semver` package) =====
   Models `semver.parse` (strict grammar: optional leading `v`, trimmed,
   numeric components without leading zeros and bounded by JS
   MAX_SAFE_INTEGER, dot-separated prerelease and build identifiers),
   `semver.prerelease`, `semver.major/minor/patch` and `semver.inc`. -/

structure SemVer where
  major : Nat
  minor : Nat
  patch : Nat
  pre : List String
  build : List String
  deriving DecidableEq

def isDigitC (c : Char) : Bool := '0' ≤ c && c ≤ '9'

def isIdChar (c : Char) : Bool :=
  isDigitC c || ('a' ≤ c && c ≤ 'z') || ('A' ≤ c && c ≤ 'Z') || c == '-'

def digitsToNat (l : List Char) : Nat :=
  l.foldl (fun acc c => acc * 10 + (c.toNat - 48)) 0

def maxSafeInt : Nat := 9007199254740991

def leadingZero : List Char → Bool
  | '0' :: _ :: _ => true
  | _ => false

/-- A numeric version component: digits, no leading zero, ≤ MAX_SAFE_INTEGER. -/
def parseNumId (l : List Char) : Option Nat :=
  if l ≠ [] ∧ l.all isDigitC = true ∧ leadingZero l = false ∧ digitsToNat l ≤ maxSafeInt then
    some (digitsToNat l)
  else none

/-- A prerelease identifier: nonempty alphanumeric-or-hyphen; purely numeric
    identifiers must not have leading zeros. -/
def validPreId (l : List Char) : Bool :=
  !l.isEmpty && l.all isIdChar && (!(l.all isDigitC) || !leadingZero l)

def validBuildId (l : List Char) : Bool := !l.isEmpty && l.all isIdChar

def parseCorePre (corePre : List Char) (build : List String) : Option SemVer :=
  match splitOnCharL '-' corePre with
  | [] => none
  | core :: preParts =>
    match splitOnCharL '.' core with
    | [a, b, c] =>
      match parseNumId a, parseNumId b, parseNumId c with
      | some vMajor, some vMinor, some vPatch =>
        match preParts with
        | [] => some ⟨vMajor, vMinor, vPatch, [], build⟩
        | _ :: _ =>
          let pids := splitOnCharL '.' (joinSepL ['-'] preParts)
          if pids.all validPreId then
            some ⟨vMajor, vMinor, vPatch, pids.map (fun l => (⟨l⟩ : String)), build⟩
          else none
      | _, _, _ => none
    | _ => none

def parseSemVer (s : String) : Option SemVer :=
  let t0 := trimChars s.data
  let t := if isPrefixL ['v'] t0 then t0.drop 1 else t0
  match splitOnCharL '+' t with
  | [corePre] => parseCorePre corePre []
  | [corePre, buildPart] =>
    let bids := splitOnCharL '.' buildPart
    if bids.all validBuildId then
      parseCorePre corePre (bids.map (fun l => (⟨l⟩ : String)))
    else none
  | _ => none

/-- Decimal rendering of a natural number (model of JS number→string),
    fuelled to stay structurally recursive. -/
def natDigitsFuel : Nat → Nat → List Char
  | 0, _ => []
  | fuel + 1, n =>
    if n < 10 then [Char.ofNat (n + 48)]
    else natDigitsFuel fuel (n / 10) ++ [Char.ofNat (n % 10 + 48)]

def natStr (n : Nat) : String := ⟨natDigitsFuel (n + 1) n⟩

/-- `SemVer.version` formatting: `M.m.p` plus `-pre` when present (build
    metadata is not part of the formatted version). -/
def renderCore (vMajor vMinor vPatch : Nat) (pre : List String) : String :=
  natStr vMajor ++ "." ++ natStr vMinor ++ "." ++ natStr vPatch ++
    (if pre.isEmpty then "" else "-" ++ joinSep "." pre)

/-- `semver.inc(v, level)`: null on an unparsable version or an invalid
    increment argument; otherwise node-semver's increment rules. -/
def semverIncr (v : String) (level : BumpLevel) : Option String :=
  match parseSemVer v, level with
  | none, _ => none
  | some sv, BumpLevel.major =>
    some (renderCore (if sv.minor ≠ 0 ∨ sv.patch ≠ 0 ∨ sv.pre = [] then sv.major + 1 else sv.major) 0 0 [])
  | some sv, BumpLevel.minor =>
    some (renderCore sv.major (if sv.patch ≠ 0 ∨ sv.pre = [] then sv.minor + 1 else sv.minor) 0 [])
  | some sv, BumpLevel.patch =>
    some (renderCore sv.major sv.minor (if sv.pre = [] then sv.patch + 1 else sv.patch) [])
  | some _, BumpLevel.none => none

/- ===== Environment (the consumed VCS / filesystem surface) ===== -/

/-- The results of the git and filesystem queries the engine consumes:
    `getLatestTaggedVersion`, `getAllVersionTags`, existence and contents of
    the `.changeset` directory, `getChangesetFilesAtTag` (raw `git ls-tree`
    output), `getFileContentAtTag`, `getTagDate`, the package.json `version`
    field, and the current time. -/
structure GitEnv where
  latestTag : String
  allTags : List String
  changesetDirExists : Bool
  changesetFiles : List (String × String)
  filesAtTag : String → List String
  contentAtTag : String → String → Option String
  tagDate : String → String
  pkgVersion : Option String
  nowDate : String

/-- `path.basename(file, '.md')`. -/
def basenameMd (name : String) : String :=
  if endsWithStr name ".md" then (⟨name.data.take (name.data.length - 3)⟩ : String) else name

/-- The filter `file.endsWith('.md') && !file.includes('README')` applied by
    both readers. -/
def changesetFileFilter (name : String) : Bool :=
  endsWithStr name ".md" && !containsSubstr name "README"

/- ===== Working-snapshot reader (changeset-reader.ts: readChangesets) ===== -/

def readLoop (ignoreErrors : Bool) : List (String × String) → Except String (List Changeset)
  | [] => Except.ok []
  | (name, content) :: rest =>
    let cs := parseChangesetContent content (basenameMd name)
    if cs.releases.isEmpty && !ignoreErrors then
      Except.error ("Invalid changeset file " ++ name ++ ": no valid release information found")
    else
      match readLoop ignoreErrors rest with
      | Except.error e => Except.error e
      | Except.ok csRest => Except.ok (cs :: csRest)

/-- `readChangesets(cwd, options)` from changeset-reader.ts. -/
def readChangesets (env : GitEnv) (ignoreErrors : Bool) : Except String (List Changeset) :=
  if !env.changesetDirExists then
    Except.error "There is no .changeset directory in this project"
  else
    readLoop ignoreErrors (env.changesetFiles.filter (fun f => changesetFileFilter f.1))

/- ===== At-tag reader (git-ops.ts: getChangesetsAtTag) ===== -/

def getChangesetFilesAtTag (env : GitEnv) (tagName : String) : List String :=
  (env.filesAtTag tagName).filter changesetFileFilter

def tagLoop (env : GitEnv) (tagName : String) (ignoreErrors : Bool) :
    List String → Except String (List Changeset)
  | [] => Except.ok []
  | f :: rest =>
    match env.contentAtTag tagName f with
    | none =>
      if ignoreErrors then tagLoop env tagName ignoreErrors rest
      else Except.error ("Could not read changeset file " ++ f ++ " at tag v" ++ tagName)
    | some content =>
      if content == "" then
        if ignoreErrors then tagLoop env tagName ignoreErrors rest
        else Except.error ("Could not read changeset file " ++ f ++ " at tag v" ++ tagName)
      else
        let cs := parseChangesetContent content (replaceFirst (replaceFirst f ".changeset/") ".md")
        if cs.releases.isEmpty && !ignoreErrors then
          Except.error ("Invalid changeset file " ++ f ++ " at tag v" ++ tagName ++ ": no valid release information found")
        else if !cs.releases.isEmpty then
          match tagLoop env tagName ignoreErrors rest with
          | Except.error e => Except.error e
          | Except.ok csRest => Except.ok (cs :: csRest)
        else tagLoop env tagName ignoreErrors rest

/-- `getChangesetsAtTag(tagName, options)` from git-ops.ts. -/
def getChangesetsAtTag (env : GitEnv) (tagName : String) (ignoreErrors : Bool) :
    Except String (List Changeset) :=
  tagLoop env tagName ignoreErrors (getChangesetFilesAtTag env tagName)

/- ===== Version calculation (version-calc.ts) ===== -/

/-- `getCurrentVersion()`: latest tag, else package.json version, else
    `0.0.0`; the literal `0.0.0` (and the JS-falsy empty string) is skipped
    at each stage. -/
def getCurrentVersion (env : GitEnv) : String :=
  if env.latestTag ≠ "" ∧ env.latestTag ≠ "0.0.0" then env.latestTag
  else
    match env.pkgVersion with
    | some v => if v ≠ "" ∧ v ≠ "0.0.0" then v else "0.0.0"
    | none => "0.0.0"

/-- The id-based snapshot diff used by both `getUpcomingVersion` and
    `getHistoricalVersion`:
    `current.filter(cs => !prior.some(p => p.id === cs.id))`. -/
def diffById (current prior : List Changeset) : List Changeset :=
  current.filter (fun cs => !(prior.any (fun prevCs => prevCs.id == cs.id)))

/-- The new-changeset selection step of `getUpcomingVersion`: diff against
    the latest tag unless that tag is absent or the literal `0.0.0`. -/
def selectNewChangesets (env : GitEnv) (ignoreErrors : Bool)
    (allChangesets : List Changeset) : Except String (List Changeset) :=
  if env.latestTag ≠ "" ∧ env.latestTag ≠ "0.0.0" then
    match getChangesetsAtTag env env.latestTag ignoreErrors with
    | Except.error e => Except.error e
    | Except.ok atTag => Except.ok (diffById allChangesets atTag)
  else Except.ok allChangesets

/-- The version-derivation step of `getUpcomingVersion` (lines 59-75):
    strip a prerelease suffix from the base version, then `semver.inc`;
    a null increment result becomes a thrown error. -/
def computeUpcoming (currentVersion : String) (level : BumpLevel) : Except String String :=
  let versionToIncrement :=
    match parseSemVer currentVersion with
    | some sv =>
      if !sv.pre.isEmpty then
        natStr sv.major ++ "." ++ natStr sv.minor ++ "." ++ natStr sv.patch
      else currentVersion
    | none => currentVersion
  match semverIncr versionToIncrement level with
  | some v => Except.ok v
  | none =>
    Except.error ("Could not calculate upcoming version from " ++ currentVersion ++
      " (using base: " ++ versionToIncrement ++ ")")

/-- The try-block of `getUpcomingVersion`; a `.error` result models a thrown
    exception reaching the function's own catch. -/
def getUpcomingVersionBody (env : GitEnv) (ignoreErrors : Bool) :
    Except String (Option ChangelogEntry) :=
  match readChangesets env ignoreErrors with
  | Except.error e => Except.error e
  | Except.ok allChangesets =>
    if allChangesets.isEmpty then Except.ok none
    else
      match selectNewChangesets env ignoreErrors allChangesets with
      | Except.error e => Except.error e
      | Except.ok newChangesets =>
        if newChangesets.isEmpty then Except.ok none
        else if getHighestBumpLevel newChangesets = BumpLevel.none then Except.ok none
        else
          match computeUpcoming (getCurrentVersion env) (getHighestBumpLevel newChangesets) with
          | Except.error e => Except.error e
          | Except.ok upcomingVersion =>
            Except.ok (some
              { version := upcomingVersion
                date := env.nowDate
                changes := newChangesets.map
                  (fun cs => { type := categorizeChange cs.summary, summary := cs.summary })
                isUpcoming := true })

/-- `getUpcomingVersion(options)`: the surrounding catch turns any thrown
    error into a `null` result (with a console warning). -/
def getUpcomingVersion (env : GitEnv) (ignoreErrors : Bool) : Option ChangelogEntry :=
  match getUpcomingVersionBody env ignoreErrors with
  | Except.ok r => r
  | Except.error _ => none

/-- `getPreviousTag(version)` from version-calc.ts. -/
def getPreviousTag (env : GitEnv) (version : String) : Option String :=
  match env.allTags.findIdx? (fun t => t == version) with
  | none => none
  | some i => if i = env.allTags.length - 1 then none else env.allTags[i + 1]?

/-- `getHistoricalVersion(version, options)` from version-calc.ts. -/
def getHistoricalVersion (env : GitEnv) (version : String) (ignoreErrors : Bool) :
    Except String ChangelogEntry :=
  match getChangesetsAtTag env version ignoreErrors with
  | Except.error e => Except.error e
  | Except.ok changesetsAtTag =>
    match
      (match getPreviousTag env version with
       | some p => getChangesetsAtTag env p ignoreErrors
       | none => Except.ok []) with
    | Except.error e => Except.error e
    | Except.ok changesetsAtPreviousTag =>
      Except.ok
        { version := version
          date := env.tagDate version
          changes := (diffById changesetsAtTag changesetsAtPreviousTag).map
            (fun cs => { type := categorizeChange cs.summary, summary := cs.summary })
          isUpcoming := false }

/- ===== Assembly (cli/generate.ts: generateCommand action) ===== -/

/-- JS `arr.slice(0, n)` for a possibly negative `n`. -/
def jsSliceTo (l : List α) (n : Int) : List α :=
  if 0 ≤ n then l.take n.toNat else l.take ((l.length : Int) + n).toNat

def mapExcept (f : α → Except ε β) : List α → Except ε (List β)
  | [] => Except.ok []
  | x :: xs =>
    match f x with
    | Except.error e => Except.error e
    | Except.ok y =>
      match mapExcept f xs with
      | Except.error e => Except.error e
      | Except.ok ys => Except.ok (y :: ys)

/-- The changelog-assembly portion of the generate command: upcoming entry
    first (when present), then historical entries for the reported tags,
    truncated to `maxVersions` (`parseInt(...) || 10` modelled by mapping 0
    to 10). -/
def assembleVersions (env : GitEnv) (ignoreErrors : Bool) (maxVersionsOpt : Int) :
    Except String (List ChangelogEntry) :=
  let upcoming := getUpcomingVersion env ignoreErrors
  let maxVersions : Int := if maxVersionsOpt = 0 then 10 else maxVersionsOpt
  let maxHistoricalVersions : Int :=
    if upcoming.isSome then maxVersions - 1 else maxVersions
  let historicalVersions := jsSliceTo env.allTags maxHistoricalVersions
  match mapExcept (fun v => getHistoricalVersion env v ignoreErrors) historicalVersions with
  | Except.error e => Except.error e
  | Except.ok hist =>
    Except.ok ((match upcoming with | some u => [u] | none => []) ++ hist)

/-- `true` iff an `Except` value is an error (a thrown JS exception). -/
def isErrorE : Except ε α → Bool
  | Except.error _ => true
  | Except.ok _ => false

/-- All the character-level facts needed about a decimal rendering. -/
def goodDigit (c : Char) : Prop :=
  isDigitC c = true ∧ isWs c = false ∧ c ≠ '.' ∧ c ≠ '+' ∧ c ≠ '-' ∧ c ≠ 'v'

/- ===== Concrete fixtures used to witness the theorems ===== -/

/-- A repository with one pending minor changeset and five historical tags. -/
def envA : GitEnv :=
  { latestTag := "1.4.0"
    allTags := ["1.4.0", "1.3.0", "1.2.0", "1.1.0", "1.0.0"]
    changesetDirExists := true
    changesetFiles := [("new-stuff.md", "---\ntype: minor\n---\n\nAdd new feature")]
    filesAtTag := fun _ => []
    contentAtTag := fun _ _ => none
    tagDate := fun t => t ++ "T00:00:00Z"
    pkgVersion := none
    nowDate := "2026-10-12T00:00:00Z" }

/-- The entries `assembleVersions envA false 3` produces. -/
def vsA : List ChangelogEntry :=
  [{ version := "1.5.0", date := "2026-10-12T00:00:00Z"
     changes := [{ type := Category.added, summary := "Add new feature" }]
     isUpcoming := true },
   { version := "1.4.0", date := "1.4.0T00:00:00Z", changes := [], isUpcoming := false },
   { version := "1.3.0", date := "1.3.0T00:00:00Z", changes := [], isUpcoming := false }]

/-- A working snapshot holding one record with no frontmatter block. -/
def envBadRec : GitEnv :=
  { latestTag := "0.0.0"
    allTags := []
    changesetDirExists := true
    changesetFiles := [("invalid.md", "This is not a valid changeset")]
    filesAtTag := fun _ => []
    contentAtTag := fun _ _ => none
    tagDate := fun t => t
    pkgVersion := none
    nowDate := "2026-10-12T00:00:00Z" }

/-- A repository whose latest tag is not a parsable semantic version. -/
def envBadVer : GitEnv :=
  { latestTag := "garbage"
    allTags := []
    changesetDirExists := true
    changesetFiles := [("ok.md", "---\ntype: minor\n---\n\nAdd thing")]
    filesAtTag := fun _ => []
    contentAtTag := fun _ _ => none
    tagDate := fun t => t
    pkgVersion := none
    nowDate := "2026-10-12T00:00:00Z" }

/-- A tag `1.0.0` containing one record file with no frontmatter block. -/
def envTagLen : GitEnv :=
  { latestTag := "1.0.0"
    allTags := ["1.0.0"]
    changesetDirExists := true
    changesetFiles := [("invalid.md", "This is not a valid changeset")]
    filesAtTag := fun _ => [".changeset/invalid.md"]
    contentAtTag := fun _ _ => some "This is not a valid changeset"
    tagDate := fun t => t
    pkgVersion := none
    nowDate := "2026-10-12T00:00:00Z" }

/-- A repository with latest tag `0.0.0` and a package.json version. -/
def envPkg : GitEnv :=
  { latestTag := "0.0.0"
    allTags := []
    changesetDirExists := true
    changesetFiles := []
    filesAtTag := fun _ => []
    contentAtTag := fun _ _ => none
    tagDate := fun t => t
    pkgVersion := some "2.3.4"
    nowDate := "2026-10-12T00:00:00Z" }

/- ===== Supporting lemmas ===== -/

theorem stepLevel_minor (h : BumpLevel) : stepLevel h RelType.minor = BumpLevel.minor := by
  cases h <;> rfl

theorem scanRels_spec (rs : List RelType) (h : BumpLevel) :
    scanRels rs h =
      if rs.any (fun x => x == RelType.major) then Except.error BumpLevel.major
      else Except.ok
        (if rs.any (fun x => x == RelType.minor) then BumpLevel.minor
         else if rs.any (fun x => x == RelType.patch) then
           (if h = BumpLevel.none then BumpLevel.patch else h)
         else h) := by
  induction rs generalizing h with
  | nil => simp [scanRels]
  | cons r rs ih =>
    cases r with
    | major => simp [scanRels]
    | minor =>
      rw [scanRels, if_neg (by simp), stepLevel_minor, ih]
      by_cases hM : rs.any (fun x => x == RelType.major) <;>
        by_cases hm : rs.any (fun x => x == RelType.minor) <;>
          by_cases hp : rs.any (fun x => x == RelType.patch) <;>
            simp [hM, hm, hp]
    | patch =>
      rw [scanRels, if_neg (by simp), ih]
      by_cases hM : rs.any (fun x => x == RelType.major) <;>
        by_cases hm : rs.any (fun x => x == RelType.minor) <;>
          by_cases hp : rs.any (fun x => x == RelType.patch) <;>
            cases h <;> simp [hM, hm, hp, stepLevel]

theorem hasRelB_cons (cs : Changeset) (l : List Changeset) (r : RelType) :
    hasRelB (cs :: l) r = (cs.releases.any (fun x => x == r) || hasRelB l r) := by
  simp [hasRelB]

theorem scanCss_spec (l : List Changeset) (h : BumpLevel) :
    scanCss l h =
      if hasRelB l RelType.major then Except.error BumpLevel.major
      else Except.ok
        (if hasRelB l RelType.minor then BumpLevel.minor
         else if hasRelB l RelType.patch then (if h = BumpLevel.none then BumpLevel.patch else h)
         else h) := by
  induction l generalizing h with
  | nil => simp [scanCss, hasRelB]
  | cons cs rest ih =>
    rw [scanCss, scanRels_spec, hasRelB_cons, hasRelB_cons, hasRelB_cons]
    by_cases hM : cs.releases.any (fun x => x == RelType.major)
    · simp [hM]
    · by_cases hm : cs.releases.any (fun x => x == RelType.minor) <;>
        by_cases hp : cs.releases.any (fun x => x == RelType.patch) <;>
          by_cases hM2 : hasRelB rest RelType.major <;>
            by_cases hm2 : hasRelB rest RelType.minor <;>
              by_cases hp2 : hasRelB rest RelType.patch <;>
                cases h <;> simp [hM, hm, hp, hM2, hm2, hp2, ih]

theorem getHighestBumpLevel_eq (l : List Changeset) :
    getHighestBumpLevel l = precedenceMax l := by
  rw [getHighestBumpLevel, scanCss_spec, precedenceMax]
  by_cases hM : hasRelB l RelType.major <;>
    by_cases hm : hasRelB l RelType.minor <;>
      by_cases hp : hasRelB l RelType.patch <;> simp [hM, hm, hp]

theorem hasRelB_iff (l : List Changeset) (r : RelType) :
    hasRelB l r = true ↔ ∃ cs ∈ l, r ∈ cs.releases := by
  simp only [hasRelB, List.any_eq_true, beq_iff_eq]
  constructor
  · rintro ⟨cs, hcs, x, hx, rfl⟩
    exact ⟨cs, hcs, hx⟩
  · rintro ⟨cs, hcs, hr⟩
    exact ⟨cs, hcs, r, hr, rfl⟩

theorem hasRelB_perm {l l2 : List Changeset} (hperm : l.Perm l2) (r : RelType) :
    hasRelB l r = hasRelB l2 r := by
  have hiff : (hasRelB l r = true) ↔ (hasRelB l2 r = true) := by
    rw [hasRelB_iff, hasRelB_iff]
    constructor
    · rintro ⟨cs, hcs, hr⟩
      exact ⟨cs, hperm.mem_iff.mp hcs, hr⟩
    · rintro ⟨cs, hcs, hr⟩
      exact ⟨cs, hperm.mem_iff.mpr hcs, hr⟩
  cases h1 : hasRelB l r <;> cases h2 : hasRelB l2 r <;> simp_all

theorem any_id_eq_map (B : List Changeset) (s : String) :
    (B.any fun prevCs => prevCs.id == s) = ((B.map Changeset.id).any fun x => x == s) := by
  induction B with
  | nil => rfl
  | cons b bs ih => simp [List.any_cons, ih]

/- ===== Claim theorems ===== -/

/-- C3: for all record sets `A` and prior set `B`, the id-based snapshot diff
    used by `getUpcomingVersion` and `getHistoricalVersion` returns a subset
    of `A`, contains no element whose id occurs in `B`, depends on `B` only
    through its ids, and returns `A` verbatim when `B` is empty. -/
theorem diffById_spec (A B B2 : List Changeset)
    (hB : B.map Changeset.id = B2.map Changeset.id) :
    (diffById A B).Sublist A ∧
    (∀ cs ∈ diffById A B, ∀ p ∈ B, p.id ≠ cs.id) ∧
    diffById A B = diffById A B2 ∧
    diffById A [] = A := by
  refine ⟨List.filter_sublist A, ?_, ?_, by simp [diffById]⟩
  · intro cs hcs p hp
    have h2 := (List.mem_filter.mp hcs).2
    simp only [Bool.not_eq_eq_eq_not, Bool.not_true, List.any_eq_false, beq_iff_eq] at h2
    exact h2 p hp
  · unfold diffById
    apply List.filter_congr
    intro cs _
    rw [any_id_eq_map B cs.id, any_id_eq_map B2 cs.id, hB]

/-- C3 witness. -/
theorem diffById_spec_witness :
    (diffById [⟨"a", "x", []⟩, ⟨"b", "y", []⟩] [⟨"a", "z", [RelType.major]⟩]).Sublist
      [⟨"a", "x", []⟩, ⟨"b", "y", []⟩] ∧
    (∀ cs ∈ diffById [⟨"a", "x", []⟩, ⟨"b", "y", []⟩] [⟨"a", "z", [RelType.major]⟩],
      ∀ p ∈ [(⟨"a", "z", [RelType.major]⟩ : Changeset)], p.id ≠ cs.id) ∧
    diffById [⟨"a", "x", []⟩, ⟨"b", "y", []⟩] [⟨"a", "z", [RelType.major]⟩] =
      diffById [⟨"a", "x", []⟩, ⟨"b", "y", []⟩] [⟨"a", "w", []⟩] ∧
    diffById [⟨"a", "x", []⟩, ⟨"b", "y", []⟩] [] = [⟨"a", "x", []⟩, ⟨"b", "y", []⟩] :=
  diffById_spec [⟨"a", "x", []⟩, ⟨"b", "y", []⟩] [⟨"a", "z", [RelType.major]⟩]
    [⟨"a", "w", []⟩] (by decide)

/-- C4: severity resolution is order-independent (any permutation of the
    record list yields the same result), the result is the maximum under the
    precedence major > minor > patch > none, and a single major record forces
    the result `major`. -/
theorem getHighestBumpLevel_spec (l l2 : List Changeset) (hperm : l.Perm l2) :
    getHighestBumpLevel l = getHighestBumpLevel l2 ∧
    getHighestBumpLevel l = precedenceMax l ∧
    (∀ cs ∈ l, RelType.major ∈ cs.releases → getHighestBumpLevel l = BumpLevel.major) := by
  refine ⟨?_, getHighestBumpLevel_eq l, ?_⟩
  · rw [getHighestBumpLevel_eq, getHighestBumpLevel_eq]
    unfold precedenceMax
    rw [hasRelB_perm hperm, hasRelB_perm hperm, hasRelB_perm hperm]
  · intro cs hcs hmaj
    rw [getHighestBumpLevel_eq]
    unfold precedenceMax
    rw [if_pos ((hasRelB_iff l RelType.major).mpr ⟨cs, hcs, hmaj⟩)]

/-- C4 witness. -/
theorem getHighestBumpLevel_spec_witness :
    getHighestBumpLevel [⟨"a", "x", [RelType.patch]⟩, ⟨"b", "y", [RelType.major]⟩] =
      getHighestBumpLevel [⟨"b", "y", [RelType.major]⟩, ⟨"a", "x", [RelType.patch]⟩] ∧
    getHighestBumpLevel [⟨"a", "x", [RelType.patch]⟩, ⟨"b", "y", [RelType.major]⟩] =
      precedenceMax [⟨"a", "x", [RelType.patch]⟩, ⟨"b", "y", [RelType.major]⟩] ∧
    (∀ cs ∈ [(⟨"a", "x", [RelType.patch]⟩ : Changeset), ⟨"b", "y", [RelType.major]⟩],
      RelType.major ∈ cs.releases →
        getHighestBumpLevel [⟨"a", "x", [RelType.patch]⟩, ⟨"b", "y", [RelType.major]⟩] =
          BumpLevel.major) :=
  getHighestBumpLevel_spec [⟨"a", "x", [RelType.patch]⟩, ⟨"b", "y", [RelType.major]⟩]
    [⟨"b", "y", [RelType.major]⟩, ⟨"a", "x", [RelType.patch]⟩] (by decide)

/-- C6: `categorizeChange` is pure and deterministic, agrees with the spec's
    first-match-wins keyword table evaluated over the lowercased summary
    (falling through to `changed`), and is case-insensitive: summaries with
    the same lowercasing get the same category. -/
theorem categorizeChange_spec (s t : String) (hlow : lowerStr s = lowerStr t) :
    categorizeChange s = categorizeSpec s ∧ categorizeChange s = categorizeChange t := by
  constructor
  · simp only [categorizeChange, categorizeSpec, categoryTable, firstMatchCat, List.any_cons,
      List.any_nil, Bool.or_false, Bool.or_assoc]
  · unfold categorizeChange
    rw [hlow]

/-- C6 witness. -/
theorem categorizeChange_spec_witness :
    categorizeChange "FIX the Bug" = categorizeSpec "FIX the Bug" ∧
    categorizeChange "FIX the Bug" = categorizeChange "fix the bug" :=
  categorizeChange_spec "FIX the Bug" "fix the bug" (by decide)

theorem string_ne_empty_of_data (s : String) (h : s.data ≠ []) : s ≠ "" := by
  intro he
  rw [he] at h
  exact h rfl

theorem changesFrom_ne (i : String) : ("Changes from " ++ i) ≠ "" := by
  apply string_ne_empty_of_data
  rw [String.data_append]
  intro h
  exact absurd (List.append_eq_nil.mp h).1 (by decide)

theorem fallback_ne (x i : String) :
    (if (x == "") = true then "Changes from " ++ i else x) ≠ "" := by
  split
  · exact changesFrom_ne i
  · next hne => simpa using hne

theorem parse_summary_ne (c i : String) : (parseChangesetContent c i).summary ≠ "" := by
  simp only [parseChangesetContent]
  cases h1 : (splitLines c).findIdx? (fun l => trimStr l == "---") with
  | none => exact fallback_ne (trimStr c) i
  | some fmStart =>
    simp only []
    cases h2 : ((splitLines c).drop (fmStart + 1)).findIdx? (fun l => trimStr l == "---") with
    | none => exact fallback_ne (trimStr c) i
    | some d => exact fallback_ne _ i

/-- C9: on input with no separator block the parser does not fail: it
    returns a record with empty severity whose summary is the raw trimmed
    text (when nonempty); and for every input the returned summary is never
    empty, the fallback "Changes from {id}" covering blank bodies. -/
theorem parseChangesetContent_spec (content id : String)
    (hnosep : ∀ l ∈ splitLines content, trimStr l ≠ "---") :
    (parseChangesetContent content id).releases = [] ∧
    (trimStr content ≠ "" → (parseChangesetContent content id).summary = trimStr content) ∧
    (∀ c i : String, (parseChangesetContent c i).summary ≠ "") := by
  have hnone : (splitLines content).findIdx? (fun l => trimStr l == "---") = none :=
    List.findIdx?_eq_none_iff.mpr (fun x hx => by simpa using hnosep x hx)
  refine ⟨?_, ?_, fun c i => parse_summary_ne c i⟩
  · simp only [parseChangesetContent, hnone]
  · intro hne
    simp only [parseChangesetContent, hnone]
    rw [if_neg (by simpa using hne)]

/-- C9 witness. -/
theorem parseChangesetContent_spec_witness :
    (parseChangesetContent "This is not a valid changeset" "invalid").releases = [] ∧
    (trimStr "This is not a valid changeset" ≠ "" →
      (parseChangesetContent "This is not a valid changeset" "invalid").summary =
        trimStr "This is not a valid changeset") ∧
    (∀ c i : String, (parseChangesetContent c i).summary ≠ "") :=
  parseChangesetContent_spec "This is not a valid changeset" "invalid" (by decide)

/-- C10: the literal version `0.0.0` is treated as "no tag": with the latest
    tag equal to `0.0.0`, `getCurrentVersion` falls through to package.json
    (itself skipped when `0.0.0`) and then to the literal `0.0.0`, and
    `getUpcomingVersion` performs no diff against the latest tag, so all
    current records count as new. -/
theorem zeroTag_treated_as_noTag (env : GitEnv) (pv : String) (ie : Bool)
    (allCs : List Changeset) (h0 : env.latestTag = "0.0.0") :
    (env.pkgVersion = some pv → pv ≠ "" → pv ≠ "0.0.0" → getCurrentVersion env = pv) ∧
    (env.pkgVersion = some "0.0.0" → getCurrentVersion env = "0.0.0") ∧
    (env.pkgVersion = Option.none → getCurrentVersion env = "0.0.0") ∧
    selectNewChangesets env ie allCs = Except.ok allCs := by
  have hcond : ¬(env.latestTag ≠ "" ∧ env.latestTag ≠ "0.0.0") := by
    rw [h0]; simp
  refine ⟨?_, ?_, ?_, ?_⟩
  · intro hp h1 h2
    unfold getCurrentVersion
    rw [if_neg hcond, hp]
    exact if_pos ⟨h1, h2⟩
  · intro hp
    unfold getCurrentVersion
    rw [if_neg hcond, hp]
    simp
  · intro hp
    unfold getCurrentVersion
    rw [if_neg hcond, hp]
  · unfold selectNewChangesets
    exact if_neg hcond

/-- C10 witness. -/
theorem zeroTag_treated_as_noTag_witness :
    (envPkg.pkgVersion = some "2.3.4" → "2.3.4" ≠ "" → "2.3.4" ≠ "0.0.0" →
      getCurrentVersion envPkg = "2.3.4") ∧
    (envPkg.pkgVersion = some "0.0.0" → getCurrentVersion envPkg = "0.0.0") ∧
    (envPkg.pkgVersion = Option.none → getCurrentVersion envPkg = "0.0.0") ∧
    selectNewChangesets envPkg false [⟨"a", "x", [RelType.patch]⟩] =
      Except.ok [⟨"a", "x", [RelType.patch]⟩] :=
  zeroTag_treated_as_noTag envPkg "2.3.4" false [⟨"a", "x", [RelType.patch]⟩] rfl

theorem readLoop_lenient (files : List (String × String)) :
    readLoop true files =
      Except.ok (files.map (fun f => parseChangesetContent f.2 (basenameMd f.1))) := by
  induction files with
  | nil => rfl
  | cons f rest ih =>
    obtain ⟨name, content⟩ := f
    simp [readLoop, ih]

theorem tagLoop_releases_ne (env : GitEnv) (tag : String) (ie : Bool) :
    ∀ (files : List String) (res : List Changeset),
      tagLoop env tag ie files = Except.ok res → ∀ cs ∈ res, cs.releases ≠ [] := by
  intro files
  induction files with
  | nil =>
    intro res h cs hcs
    cases h
    simp at hcs
  | cons f rest ih =>
    intro res h cs hcs
    simp only [tagLoop] at h
    split at h
    · split at h
      · exact ih res h cs hcs
      · cases h
    · split at h
      · split at h
        · exact ih res h cs hcs
        · cases h
      · split at h
        · cases h
        · split at h
          · next hrel =>
            split at h
            · cases h
            · next heq =>
              cases h
              rcases List.mem_cons.mp hcs with rfl | hmem
              · intro hnil
                rw [hnil] at hrel
                simp at hrel
              · exact ih _ heq cs hmem
          · exact ih res h cs hcs

/-- C2 counterexample: in lenient mode, for one record with no header block,
    `readChangesets` keeps the record (count 1, empty severity, summary equal
    to the raw trimmed text) but `getChangesetsAtTag` on the same content
    returns an empty record set — retention is not uniform across the two
    reads as the claim states. -/
theorem lenient_atTag_cex :
    getChangesetsAtTag envTagLen "1.0.0" true = Except.ok [] ∧
    readChangesets envTagLen true =
      Except.ok [{ id := "invalid", summary := "This is not a valid changeset", releases := [] }] :=
  ⟨rfl, rfl⟩

/-- C2 (amended): in lenient mode the working-snapshot read keeps every
    parsed record — including unclassifiable ones with an empty severity
    list — while the at-tag read drops zero-severity records: every record
    it returns carries at least one severity. -/
theorem lenientMode_spec (env : GitEnv) (tag : String) (ie : Bool)
    (res : List Changeset)
    (hdir : env.changesetDirExists = true)
    (hres : getChangesetsAtTag env tag ie = Except.ok res) :
    readChangesets env true =
      Except.ok ((env.changesetFiles.filter (fun f => changesetFileFilter f.1)).map
        (fun f => parseChangesetContent f.2 (basenameMd f.1))) ∧
    (∀ cs ∈ res, cs.releases ≠ []) := by
  constructor
  · unfold readChangesets
    rw [hdir]
    simp only [Bool.not_true, Bool.false_eq_true, if_false]
    exact readLoop_lenient _
  · exact tagLoop_releases_ne env tag ie _ res hres

/-- C2 witness. -/
theorem lenientMode_spec_witness :
    readChangesets envTagLen true =
      Except.ok ((envTagLen.changesetFiles.filter (fun f => changesetFileFilter f.1)).map
        (fun f => parseChangesetContent f.2 (basenameMd f.1))) ∧
    (∀ cs ∈ ([] : List Changeset), cs.releases ≠ []) :=
  lenientMode_spec envTagLen "1.0.0" true [] rfl rfl

theorem readLoop_strict_error (files : List (String × String))
    (hbad : ∃ f ∈ files, (parseChangesetContent f.2 (basenameMd f.1)).releases = []) :
    isErrorE (readLoop false files) = true := by
  induction files with
  | nil => simp at hbad
  | cons f rest ih =>
    obtain ⟨name, content⟩ := f
    by_cases hb : (parseChangesetContent content (basenameMd name)).releases = []
    · simp [readLoop, hb, isErrorE]
    · have hrest : ∃ g ∈ rest, (parseChangesetContent g.2 (basenameMd g.1)).releases = [] := by
        rcases hbad with ⟨g, hg, hgbad⟩
        rcases List.mem_cons.mp hg with rfl | hgr
        · exact absurd hgbad hb
        · exact ⟨g, hgr, hgbad⟩
      have herr := ih hrest
      simp only [readLoop]
      rw [if_neg (by simp [hb])]
      cases hr : readLoop false rest with
      | error e => simp [isErrorE]
      | ok r =>
        rw [hr] at herr
        simp [isErrorE] at herr

theorem computeUpcoming_error (v : String) (level : BumpLevel)
    (hv : parseSemVer v = none) :
    isErrorE (computeUpcoming v level) = true := by
  simp only [computeUpcoming, hv, semverIncr]
  rfl

/-- C1 (amended): in strict mode any unclassifiable record aborts the whole
    read with a hard failure, and a malformed base version makes the
    increment step fail; but both errors are thrown inside
    `getUpcomingVersion`'s try block, whose catch recovers locally and
    returns null to the caller instead of letting the failure propagate. -/
theorem strictErrors_spec (env : GitEnv) (ie : Bool) (e : String)
    (hbody : getUpcomingVersionBody env ie = Except.error e) :
    getUpcomingVersion env ie = none ∧
    (∀ env2 : GitEnv, env2.changesetDirExists = true →
      (∃ f ∈ env2.changesetFiles.filter (fun x => changesetFileFilter x.1),
        (parseChangesetContent f.2 (basenameMd f.1)).releases = []) →
      isErrorE (readChangesets env2 false) = true) ∧
    (∀ (v : String) (level : BumpLevel), parseSemVer v = none →
      isErrorE (computeUpcoming v level) = true) := by
  refine ⟨?_, ?_, fun v level hv => computeUpcoming_error v level hv⟩
  · unfold getUpcomingVersion
    rw [hbody]
  · intro env2 hdir hbad
    unfold readChangesets
    rw [hdir]
    simp only [Bool.not_true, Bool.false_eq_true, if_false]
    exact readLoop_strict_error _ hbad

/-- C1 witness. -/
theorem strictErrors_spec_witness :
    getUpcomingVersion envBadRec false = none ∧
    isErrorE (readChangesets envBadRec false) = true ∧
    isErrorE (computeUpcoming "garbage" BumpLevel.minor) = true :=
  ⟨(strictErrors_spec envBadRec false
      "Invalid changeset file invalid.md: no valid release information found" rfl).1,
   (strictErrors_spec envBadRec false
      "Invalid changeset file invalid.md: no valid release information found" rfl).2.1
     envBadRec rfl ⟨("invalid.md", "This is not a valid changeset"), by decide, by rfl⟩,
   (strictErrors_spec envBadRec false
      "Invalid changeset file invalid.md: no valid release information found" rfl).2.2
     "garbage" BumpLevel.minor rfl⟩

/-- C1 counterexample: strict mode on a record with zero severities makes the
    read fail and the version computation on a malformed base version fails,
    yet `getUpcomingVersion` returns null (no thrown error) in both cases —
    the hard failure is recovered locally, not surfaced to the caller. -/
theorem strictErrors_cex :
    isErrorE (readChangesets envBadRec false) = true ∧
    isErrorE (getUpcomingVersionBody envBadRec false) = true ∧
    getUpcomingVersion envBadRec false = none ∧
    isErrorE (getUpcomingVersionBody envBadVer false) = true ∧
    getUpcomingVersion envBadVer false = none :=
  ⟨rfl, rfl, rfl, rfl, rfl⟩

theorem getHistoricalVersion_fields (env : GitEnv) (v : String) (ie : Bool)
    (entry : ChangelogEntry) (h : getHistoricalVersion env v ie = Except.ok entry) :
    entry.version = v ∧ entry.isUpcoming = false := by
  unfold getHistoricalVersion at h
  split at h
  · cases h
  · split at h
    · cases h
    · cases h
      exact ⟨rfl, rfl⟩

theorem mapExcept_hist (env : GitEnv) (ie : Bool) :
    ∀ (tags : List String) (hist : List ChangelogEntry),
      mapExcept (fun v => getHistoricalVersion env v ie) tags = Except.ok hist →
      hist.map ChangelogEntry.version = tags ∧
      (∀ e ∈ hist, e.isUpcoming = false) ∧
      hist.length = tags.length := by
  intro tags
  induction tags with
  | nil =>
    intro hist h
    cases h
    exact ⟨rfl, by simp, rfl⟩
  | cons t rest ih =>
    intro hist h
    simp only [mapExcept] at h
    split at h
    · cases h
    · next hok =>
      split at h
      · cases h
      · next hrest =>
        cases h
        obtain ⟨h1, h2, h3⟩ := ih _ hrest
        obtain ⟨hv, hu⟩ := getHistoricalVersion_fields env t ie _ hok
        refine ⟨?_, ?_, ?_⟩
        · simp [List.map_cons, hv, h1]
        · intro e he
          rcases List.mem_cons.mp he with rfl | hm
          · exact hu
          · exact h2 e hm
        · simp [h3]

theorem body_some_isUpcoming (env : GitEnv) (ie : Bool) (u : ChangelogEntry)
    (h : getUpcomingVersionBody env ie = Except.ok (some u)) : u.isUpcoming = true := by
  unfold getUpcomingVersionBody at h
  split at h
  · cases h
  · split at h
    · simp at h
    · split at h
      · cases h
      · split at h
        · simp at h
        · split at h
          · simp at h
          · split at h
            · cases h
            · simp only [Except.ok.injEq, Option.some.injEq] at h
              rw [← h]

theorem getUpcoming_isUpcoming (env : GitEnv) (ie : Bool) (u : ChangelogEntry)
    (h : getUpcomingVersion env ie = some u) : u.isUpcoming = true := by
  unfold getUpcomingVersion at h
  split at h
  · next heq =>
    rw [h] at heq
    exact body_some_isUpcoming env ie u heq
  · cases h

theorem jsSliceTo_prefix (l : List α) (n : Int) : (jsSliceTo l n).IsPrefix l := by
  unfold jsSliceTo
  split
  · exact List.take_prefix _ _
  · exact List.take_prefix _ _

/-- C7: in every assembled output at most one entry has `isUpcoming = true`;
    if present it is the first entry, and the non-upcoming entries follow in
    exactly the descending order the VCS layer reported the tags (a prefix of
    that tag list — no independent re-sort). -/
theorem assembleVersions_ok (env : GitEnv) (ie : Bool) (mv : Int)
    (vs : List ChangelogEntry) (h : assembleVersions env ie mv = Except.ok vs) :
    ∃ hist,
      mapExcept (fun v => getHistoricalVersion env v ie)
        (jsSliceTo env.allTags
          (if (getUpcomingVersion env ie).isSome = true then (if mv = 0 then 10 else mv) - 1
           else (if mv = 0 then 10 else mv))) = Except.ok hist ∧
      vs = (match getUpcomingVersion env ie with | some u => [u] | none => []) ++ hist := by
  simp only [assembleVersions] at h
  split at h
  · cases h
  · next hist hmap =>
    cases h
    exact ⟨hist, hmap, rfl⟩

theorem assembleVersions_spec (env : GitEnv) (ie : Bool) (mv : Int)
    (vs : List ChangelogEntry) (h : assembleVersions env ie mv = Except.ok vs) :
    (vs.filter (fun e => e.isUpcoming)).length ≤ 1 ∧
    (∀ e ∈ vs, e.isUpcoming = true → vs.head? = some e) ∧
    ((vs.filter (fun e => !e.isUpcoming)).map ChangelogEntry.version).IsPrefix env.allTags := by
  obtain ⟨hist, hmap, hvs⟩ := assembleVersions_ok env ie mv vs h
  obtain ⟨h1, h2, _⟩ := mapExcept_hist env ie _ hist hmap
  have hfu : hist.filter (fun e => e.isUpcoming) = [] :=
    List.filter_eq_nil_iff.mpr (fun e he => by rw [h2 e he]; simp)
  have hfn : hist.filter (fun e => !e.isUpcoming) = hist :=
    List.filter_eq_self.mpr (fun e he => by rw [h2 e he]; rfl)
  have hpre : (hist.map ChangelogEntry.version).IsPrefix env.allTags := by
    rw [h1]
    exact jsSliceTo_prefix _ _
  cases hu : getUpcomingVersion env ie with
  | none =>
    simp only [hu, List.nil_append] at hvs
    subst hvs
    refine ⟨?_, ?_, ?_⟩
    · rw [hfu]
      simp
    · intro e he hup
      rw [h2 e he] at hup
      cases hup
    · rw [hfn]
      exact hpre
  | some u =>
    have hup : u.isUpcoming = true := getUpcoming_isUpcoming env ie u hu
    simp only [hu, List.cons_append, List.nil_append] at hvs
    subst hvs
    refine ⟨?_, ?_, ?_⟩
    · rw [List.filter_cons_of_pos (by simp [hup]), hfu]
      simp
    · intro e he hup2
      rcases List.mem_cons.mp he with rfl | hm
      · rfl
      · rw [h2 e hm] at hup2
        cases hup2
    · rw [List.filter_cons_of_neg (by simp [hup]), hfn]
      exact hpre

/-- C7 witness. -/
theorem assembleVersions_spec_witness :
    (vsA.filter (fun e => e.isUpcoming)).length ≤ 1 ∧
    (∀ e ∈ vsA, e.isUpcoming = true → vsA.head? = some e) ∧
    ((vsA.filter (fun e => !e.isUpcoming)).map ChangelogEntry.version).IsPrefix envA.allTags :=
  assembleVersions_spec envA false 3 vsA rfl

/-- C8: with `maxVersions` a positive integer `n`, the assembled output has
    at most `n` entries; when an upcoming entry exists the historical entries
    are exactly the `n - 1` most recent tags (so e.g. `n = 3` with an
    upcoming entry and 5 tags gives exactly 3 entries: the upcoming one plus
    the 2 most recent tags). -/
theorem assembleVersions_max (env : GitEnv) (ie : Bool) (n : Int)
    (vs : List ChangelogEntry) (hn : 0 < n)
    (h : assembleVersions env ie n = Except.ok vs) :
    vs.length ≤ n.toNat ∧
    ((getUpcomingVersion env ie).isSome = true →
      (vs.filter (fun e => !e.isUpcoming)).map ChangelogEntry.version =
        env.allTags.take (n - 1).toNat ∧
      vs.length = 1 + min (n - 1).toNat env.allTags.length) := by
  have hn0 : ¬(n = 0) := by omega
  obtain ⟨hist, hmap, hvs⟩ := assembleVersions_ok env ie n vs h
  simp only [if_neg hn0] at hmap
  obtain ⟨h1, h2, h3⟩ := mapExcept_hist env ie _ hist hmap
  have hfn : hist.filter (fun e => !e.isUpcoming) = hist :=
    List.filter_eq_self.mpr (fun e he => by rw [h2 e he]; rfl)
  cases hu : getUpcomingVersion env ie with
  | none =>
    simp only [hu, List.nil_append] at hvs
    subst hvs
    simp [hu] at h3
    constructor
    · rw [h3]
      unfold jsSliceTo
      rw [if_pos (by omega : (0 : Int) ≤ n), List.length_take]
      omega
    · intro hfalse
      simp at hfalse
  | some u =>
    have hup : u.isUpcoming = true := getUpcoming_isUpcoming env ie u hu
    simp only [hu, List.cons_append, List.nil_append] at hvs
    subst hvs
    simp [hu] at h1 h3
    have htake : jsSliceTo env.allTags (n - 1) = env.allTags.take (n - 1).toNat := by
      unfold jsSliceTo
      rw [if_pos (by omega : (0 : Int) ≤ n - 1)]
    constructor
    · simp only [List.length_cons]
      rw [h3, htake, List.length_take]
      omega
    · intro _
      refine ⟨?_, ?_⟩
      · rw [List.filter_cons_of_neg (by simp [hup]), hfn, h1, htake]
      · simp only [List.length_cons]
        rw [h3, htake, List.length_take]
        omega

/-- C8 witness: `maxVersions = 3`, an upcoming entry, 5 historical tags →
    exactly 3 entries: the upcoming entry plus the 2 most recent tags. -/
theorem assembleVersions_max_witness :
    vsA.length ≤ (3 : Int).toNat ∧
    ((getUpcomingVersion envA false).isSome = true →
      (vsA.filter (fun e => !e.isUpcoming)).map ChangelogEntry.version =
        envA.allTags.take ((3 : Int) - 1).toNat ∧
      vsA.length = 1 + min ((3 : Int) - 1).toNat envA.allTags.length) :=
  assembleVersions_max envA false 3 vsA (by decide) rfl

theorem digitChar_facts (d : Nat) (hd : d < 10) :
    isDigitC (Char.ofNat (d + 48)) = true ∧
    isWs (Char.ofNat (d + 48)) = false ∧
    (Char.ofNat (d + 48)).toNat - 48 = d ∧
    (Char.ofNat (d + 48) = '0' ↔ d = 0) ∧
    Char.ofNat (d + 48) ≠ '.' ∧ Char.ofNat (d + 48) ≠ '+' ∧
    Char.ofNat (d + 48) ≠ '-' ∧ Char.ofNat (d + 48) ≠ 'v' := by
  interval_cases d <;> exact ⟨by decide, by decide, by decide, by decide, by decide, by decide, by decide, by decide⟩

theorem digitsToNat_append_single (l : List Char) (c : Char) :
    digitsToNat (l ++ [c]) = digitsToNat l * 10 + (c.toNat - 48) := by
  unfold digitsToNat
  rw [List.foldl_append]
  rfl

theorem natDigits_spec (fuel : Nat) : ∀ n, n < 10 ^ (fuel + 1) →
    natDigitsFuel (fuel + 1) n ≠ [] ∧
    (∀ c ∈ natDigitsFuel (fuel + 1) n, goodDigit c) ∧
    digitsToNat (natDigitsFuel (fuel + 1) n) = n ∧
    (1 ≤ n → (natDigitsFuel (fuel + 1) n).head? ≠ some '0') := by
  induction fuel with
  | zero =>
    intro n hn
    have h10 : n < 10 := by simpa using hn
    obtain ⟨hd1, hd2, hd3, hd4, hd5, hd6, hd7, hd8⟩ := digitChar_facts n h10
    rw [natDigitsFuel, if_pos h10]
    refine ⟨by simp, ?_, ?_, ?_⟩
    · intro c hc
      rw [List.mem_singleton] at hc
      subst hc
      exact ⟨hd1, hd2, hd5, hd6, hd7, hd8⟩
    · unfold digitsToNat
      simpa using hd3
    · intro h1 hcon
      rw [List.head?_cons, Option.some.injEq] at hcon
      have := hd4.mp hcon
      omega
  | succ fuel ih =>
    intro n hn
    by_cases h10 : n < 10
    · obtain ⟨hd1, hd2, hd3, hd4, hd5, hd6, hd7, hd8⟩ := digitChar_facts n h10
      rw [natDigitsFuel, if_pos h10]
      refine ⟨by simp, ?_, ?_, ?_⟩
      · intro c hc
        rw [List.mem_singleton] at hc
        subst hc
        exact ⟨hd1, hd2, hd5, hd6, hd7, hd8⟩
      · unfold digitsToNat
        simpa using hd3
      · intro h1 hcon
        rw [List.head?_cons, Option.some.injEq] at hcon
        have := hd4.mp hcon
        omega
    · have hdiv : n / 10 < 10 ^ (fuel + 1) := by
        apply Nat.div_lt_of_lt_mul
        calc n < 10 ^ (fuel + 1 + 1) := hn
        _ = 10 * 10 ^ (fuel + 1) := by ring
      obtain ⟨ih1, ih2, ih3, ih4⟩ := ih (n / 10) hdiv
      have hmod : n % 10 < 10 := Nat.mod_lt n (by omega)
      obtain ⟨hd1, hd2, hd3, hd4, hd5, hd6, hd7, hd8⟩ := digitChar_facts (n % 10) hmod
      rw [natDigitsFuel, if_neg h10]
      refine ⟨by simp, ?_, ?_, ?_⟩
      · intro c hc
        rw [List.mem_append] at hc
        rcases hc with hc | hc
        · exact ih2 c hc
        · rw [List.mem_singleton] at hc
          subst hc
          exact ⟨hd1, hd2, hd5, hd6, hd7, hd8⟩
      · rw [digitsToNat_append_single, ih3, hd3]
        omega
      · intro _ hcon
        have hne := ih4 (by omega)
        rw [List.head?_append_of_ne_nil] at hcon
        · exact hne hcon
        · exact ih1

theorem leadingZero_eq_false (l : List Char)
    (h : l.head? ≠ some '0' ∨ l.tail = []) : leadingZero l = false := by
  match l with
  | [] => rfl
  | [c] =>
    unfold leadingZero
    split
    · next heq => simp at heq
    · rfl
  | c :: c2 :: r =>
    rcases h with h | h
    · by_cases hc : c = '0'
      · subst hc
        exact absurd rfl h
      · unfold leadingZero
        split
        · next heq =>
          rw [List.cons.injEq] at heq
          exact absurd heq.1 hc
        · rfl
    · simp at h

theorem natStr_data (n : Nat) :
    (natStr n).data ≠ [] ∧
    (∀ c ∈ (natStr n).data, goodDigit c) ∧
    digitsToNat (natStr n).data = n ∧
    leadingZero (natStr n).data = false := by
  have hlt : n < 10 ^ (n + 1) := by
    calc n < 10 ^ n := Nat.lt_pow_self (by omega) n
    _ ≤ 10 ^ (n + 1) := Nat.pow_le_pow_right (by omega) (by omega)
  obtain ⟨h1, h2, h3, h4⟩ := natDigits_spec n n hlt
  refine ⟨h1, h2, h3, ?_⟩
  by_cases hn : 1 ≤ n
  · exact leadingZero_eq_false _ (Or.inl (h4 hn))
  · have hn0 : n = 0 := by omega
    subst hn0
    rfl

theorem parseNumId_natStr (n : Nat) (hn : n ≤ maxSafeInt) :
    parseNumId (natStr n).data = some n := by
  obtain ⟨h1, h2, h3, h4⟩ := natStr_data n
  unfold parseNumId
  rw [if_pos ⟨h1, List.all_eq_true.mpr (fun c hc => (h2 c hc).1), h4, by rw [h3]; exact hn⟩]
  rw [h3]

theorem splitOnCharL_ne_nil (sep : Char) (l : List Char) : splitOnCharL sep l ≠ [] := by
  cases l with
  | nil => simp [splitOnCharL]
  | cons c rest =>
    simp only [splitOnCharL]
    split
    · simp
    · split <;> simp

theorem splitOnCharL_nosep (sep : Char) (l : List Char) (h : ∀ c ∈ l, c ≠ sep) :
    splitOnCharL sep l = [l] := by
  induction l with
  | nil => rfl
  | cons c rest ih =>
    rw [splitOnCharL, ih (fun x hx => h x (List.mem_cons_of_mem c hx))]
    simp only []
    rw [if_neg (by simp [h c (List.mem_cons_self c rest)])]

theorem splitOnCharL_sep (sep : Char) (ys : List Char) :
    ∀ xs, (∀ c ∈ xs, c ≠ sep) →
      splitOnCharL sep (xs ++ sep :: ys) = xs :: splitOnCharL sep ys := by
  intro xs
  induction xs with
  | nil =>
    intro _
    rw [List.nil_append, splitOnCharL]
    obtain ⟨s, ss, heq⟩ : ∃ s ss, splitOnCharL sep ys = s :: ss := by
      cases hc : splitOnCharL sep ys with
      | nil => exact absurd hc (splitOnCharL_ne_nil sep ys)
      | cons s ss => exact ⟨s, ss, rfl⟩
    rw [heq]
    simp only []
    rw [if_pos (by simp), ← heq]
  | cons x xs ih =>
    intro h
    rw [List.cons_append, splitOnCharL, ih (fun c hc => h c (List.mem_cons_of_mem x hc))]
    simp only []
    rw [if_neg (by simp [h x (List.mem_cons_self x xs)])]

theorem dropWhile_id_of_false (p : Char → Bool) (l : List Char)
    (h : ∀ c ∈ l, p c = false) : l.dropWhile p = l := by
  cases l with
  | nil => rfl
  | cons c rest =>
    rw [List.dropWhile_cons, h c (List.mem_cons_self c rest)]
    simp

theorem trimChars_id (l : List Char) (h : ∀ c ∈ l, isWs c = false) : trimChars l = l := by
  unfold trimChars
  rw [dropWhile_id_of_false isWs l h]
  rw [dropWhile_id_of_false isWs l.reverse (fun c hc => h c (List.mem_reverse.mp hc))]
  exact List.reverse_reverse l

theorem isPrefixL_single_false (c : Char) (l : List Char)
    (h : ∀ x ∈ l, x ≠ c) (hne : l ≠ []) : isPrefixL [c] l = false := by
  cases l with
  | nil => exact absurd rfl hne
  | cons x r =>
    simp only [isPrefixL]
    rw [Bool.and_eq_false_iff]
    left
    simp [Ne.symm (h x (List.mem_cons_self x r))]

theorem parseSemVer_renderPlain (M m p : Nat) (hM : M ≤ maxSafeInt) (hm : m ≤ maxSafeInt)
    (hp : p ≤ maxSafeInt) :
    parseSemVer (natStr M ++ "." ++ natStr m ++ "." ++ natStr p) = some ⟨M, m, p, [], []⟩ := by
  obtain ⟨hM1, hM2, _, _⟩ := natStr_data M
  obtain ⟨hm1, hm2, _, _⟩ := natStr_data m
  obtain ⟨hp1, hp2, _, _⟩ := natStr_data p
  have hdot : (".").data = ['.'] := rfl
  have hdata : (natStr M ++ "." ++ natStr m ++ "." ++ natStr p).data
      = (natStr M).data ++ '.' :: ((natStr m).data ++ '.' :: (natStr p).data) := by
    simp [String.data_append, hdot]
  have hall : ∀ c ∈ (natStr M).data ++ '.' :: ((natStr m).data ++ '.' :: (natStr p).data),
      isWs c = false ∧ c ≠ '+' ∧ c ≠ '-' ∧ c ≠ 'v' ∧ c ≠ 'v' := by
    intro c hc
    simp only [List.mem_append, List.mem_cons] at hc
    rcases hc with hc | hc | hc | hc | hc
    · obtain ⟨_, g2, _, g4, g5, g6⟩ := hM2 c hc
      exact ⟨g2, g4, g5, g6, g6⟩
    · subst hc
      exact ⟨by decide, by decide, by decide, by decide, by decide⟩
    · obtain ⟨_, g2, _, g4, g5, g6⟩ := hm2 c hc
      exact ⟨g2, g4, g5, g6, g6⟩
    · subst hc
      exact ⟨by decide, by decide, by decide, by decide, by decide⟩
    · obtain ⟨_, g2, _, g4, g5, g6⟩ := hp2 c hc
      exact ⟨g2, g4, g5, g6, g6⟩
  have hMdot : ∀ c ∈ (natStr M).data, c ≠ '.' := fun c hc => (hM2 c hc).2.2.1
  have hmdot : ∀ c ∈ (natStr m).data, c ≠ '.' := fun c hc => (hm2 c hc).2.2.1
  have hpdot : ∀ c ∈ (natStr p).data, c ≠ '.' := fun c hc => (hp2 c hc).2.2.1
  have hne : (natStr M).data ++ '.' :: ((natStr m).data ++ '.' :: (natStr p).data) ≠ [] := by
    intro habs
    exact hM1 (List.append_eq_nil.mp habs).1
  simp only [parseSemVer]
  rw [hdata]
  rw [trimChars_id _ (fun c hc => (hall c hc).1)]
  rw [if_neg (by
    rw [isPrefixL_single_false 'v' _ (fun c hc => (hall c hc).2.2.2.1) hne]
    simp)]
  rw [splitOnCharL_nosep '+' _ (fun c hc => (hall c hc).2.1)]
  simp only [parseCorePre]
  rw [splitOnCharL_nosep '-' _ (fun c hc => (hall c hc).2.2.1)]
  simp only []
  rw [splitOnCharL_sep '.' ((natStr m).data ++ '.' :: (natStr p).data) (natStr M).data hMdot]
  rw [splitOnCharL_sep '.' (natStr p).data (natStr m).data hmdot]
  rw [splitOnCharL_nosep '.' (natStr p).data hpdot]
  simp only []
  rw [parseNumId_natStr M hM, parseNumId_natStr m hm, parseNumId_natStr p hp]

theorem parseNumId_le (l : List Char) (n : Nat) (h : parseNumId l = some n) :
    n ≤ maxSafeInt := by
  unfold parseNumId at h
  split at h
  · next hcond =>
    rw [Option.some.injEq] at h
    subst h
    exact hcond.2.2.2
  · cases h

theorem parseCorePre_bounds (corePre : List Char) (build : List String) (sv : SemVer)
    (h : parseCorePre corePre build = some sv) :
    sv.major ≤ maxSafeInt ∧ sv.minor ≤ maxSafeInt ∧ sv.patch ≤ maxSafeInt := by
  unfold parseCorePre at h
  split at h
  · cases h
  · split at h
    · split at h
      · next hA hB hC =>
        split at h
        · rw [Option.some.injEq] at h
          subst h
          exact ⟨parseNumId_le _ _ hA, parseNumId_le _ _ hB, parseNumId_le _ _ hC⟩
        · simp only [] at h
          split at h
          · rw [Option.some.injEq] at h
            subst h
            exact ⟨parseNumId_le _ _ hA, parseNumId_le _ _ hB, parseNumId_le _ _ hC⟩
          · cases h
      · cases h
    · cases h

theorem parseSemVer_bounds (v : String) (sv : SemVer) (h : parseSemVer v = some sv) :
    sv.major ≤ maxSafeInt ∧ sv.minor ≤ maxSafeInt ∧ sv.patch ≤ maxSafeInt := by
  simp only [parseSemVer] at h
  split at h
  · exact parseCorePre_bounds _ _ _ h
  · split at h
    · exact parseCorePre_bounds _ _ _ h
    · cases h
  · cases h

theorem semverIncr_parsed (v : String) (sv : SemVer) (h : parseSemVer v = some sv) :
    semverIncr v BumpLevel.major =
      some (renderCore (if sv.minor ≠ 0 ∨ sv.patch ≠ 0 ∨ sv.pre = [] then sv.major + 1 else sv.major) 0 0 []) ∧
    semverIncr v BumpLevel.minor =
      some (renderCore sv.major (if sv.patch ≠ 0 ∨ sv.pre = [] then sv.minor + 1 else sv.minor) 0 []) ∧
    semverIncr v BumpLevel.patch =
      some (renderCore sv.major sv.minor (if sv.pre = [] then sv.patch + 1 else sv.patch) []) := by
  refine ⟨?_, ?_, ?_⟩ <;> simp only [semverIncr, h]

/-- C5: version derivation follows standard semantic-versioning increments
    computed on the base `major.minor.patch` triple of the current version —
    major resets minor and patch, minor resets patch, patch increments patch
    only — and a pre-release suffix on the base version is stripped before
    incrementing, so e.g. base `1.0.0-beta.1` with severity patch derives
    `1.0.1`. -/
theorem computeUpcoming_spec (v : String) (sv : SemVer) (hparse : parseSemVer v = some sv) :
    computeUpcoming v BumpLevel.major = Except.ok (renderCore (sv.major + 1) 0 0 []) ∧
    computeUpcoming v BumpLevel.minor = Except.ok (renderCore sv.major (sv.minor + 1) 0 []) ∧
    computeUpcoming v BumpLevel.patch = Except.ok (renderCore sv.major sv.minor (sv.patch + 1) []) := by
  by_cases hpre : sv.pre.isEmpty = true
  · have hpre2 : sv.pre = [] := List.isEmpty_iff.mp hpre
    obtain ⟨i1, i2, i3⟩ := semverIncr_parsed v sv hparse
    refine ⟨?_, ?_, ?_⟩
    · simp only [computeUpcoming, hparse, hpre, Bool.not_true, Bool.false_eq_true, if_false, i1]
      rw [if_pos (Or.inr (Or.inr hpre2))]
    · simp only [computeUpcoming, hparse, hpre, Bool.not_true, Bool.false_eq_true, if_false, i2]
      rw [if_pos (Or.inr hpre2)]
    · simp only [computeUpcoming, hparse, hpre, Bool.not_true, Bool.false_eq_true, if_false, i3]
      rw [if_pos hpre2]
  · have hpreF : sv.pre.isEmpty = false := by simpa using hpre
    have hb := parseSemVer_bounds v sv hparse
    have hp2 := parseSemVer_renderPlain sv.major sv.minor sv.patch hb.1 hb.2.1 hb.2.2
    obtain ⟨i1, i2, i3⟩ := semverIncr_parsed _ _ hp2
    refine ⟨?_, ?_, ?_⟩
    · simp only [computeUpcoming, hparse, hpreF, Bool.not_false, eq_self_iff_true, if_true, i1,
        or_true]
    · simp only [computeUpcoming, hparse, hpreF, Bool.not_false, eq_self_iff_true, if_true, i2,
        or_true]
    · simp only [computeUpcoming, hparse, hpreF, Bool.not_false, eq_self_iff_true, if_true, i3]

/-- C5 witness: base `1.0.0-beta.1` with severity patch yields `1.0.1`;
    plain bases follow the standard increments. -/
theorem computeUpcoming_spec_witness :
    computeUpcoming "1.0.0-beta.1" BumpLevel.patch = Except.ok "1.0.1" ∧
    computeUpcoming "2.3.4" BumpLevel.major = Except.ok "3.0.0" ∧
    computeUpcoming "2.3.4" BumpLevel.minor = Except.ok "2.4.0" :=
  ⟨(computeUpcoming_spec "1.0.0-beta.1" ⟨1, 0, 0, ["beta", "1"], []⟩ rfl).2.2,
   (computeUpcoming_spec "2.3.4" ⟨2, 3, 4, [], []⟩ rfl).1,
   (computeUpcoming_spec "2.3.4" ⟨2, 3, 4, [], []⟩ rfl).2.1⟩

end ChangesetsDigger
